import Mathlib

/-
Verification of the IR fuzz-mutation engine declared in
llvm/include/llvm/FuzzMutate/IRMutator.h.

The header supplies inline bodies for InjectorIRStrategy::getWeight,
InstModificationIRStrategy::getWeight, the base-class default
mutate(Instruction&) (llvm_unreachable) and the IRMutator constructor; these
are embedded directly from the source.  The remaining operations
(mutateModule, InstDeleterIRStrategy::getWeight, the strategy mutate bodies,
parseModule, writeModule) are declared in the header but their bodies are not
part of the supplied sources; those are modelled from the specification, as
marked on each definition.
-/

set_option linter.unusedVariables false

namespace IRFuzz

/-- Types of the modelled IR.  A small fixed enumeration standing for the
type descriptors owned by the host compiler's Context. -/
inductive Ty where
  | i1
  | i32
  | i64
  | flt
deriving DecidableEq

/-- Values usable as operands: constants, undef placeholders, function
arguments, and references (by id) to the result of an earlier Instruction.
This mirrors the spec's Value notion (an Instruction's result, a constant, a
function argument). -/
inductive Operand where
  | const (t : Ty) (n : Int)
  | undef (t : Ty)
  | arg (i : Nat)
  | ref (id : Nat)
deriving DecidableEq

/-- Instruction: a typed operation node with an ordered operand list, a
terminator marker, a metadata flag and an immediate field (the fields the
modification strategy edits). -/
structure Instruction where
  id : Nat
  opcode : Nat
  resultTy : Ty
  operands : List Operand
  isTerminator : Bool
  flag : Bool
  imm : Int
deriving DecidableEq

/-- BasicBlock: ordered sequence of Instructions. -/
structure BasicBlock where
  insts : List Instruction
deriving DecidableEq

/-- Function: argument types plus an ordered sequence of BasicBlocks. -/
structure Function where
  argTys : List Ty
  blocks : List BasicBlock
deriving DecidableEq

/-- Module: top-level container of Functions; the unit of mutation entry. -/
structure Module where
  funcs : List Function
deriving DecidableEq

/-- Deterministic random source threaded through every mutation call,
modelling the spec's requirement that all randomness derive from the seed
(an explicit RNG-state value, no global generator). -/
structure RandState where
  seed : Nat
deriving DecidableEq

/-- Advance the generator one step (a 64-bit LCG) and produce a draw. -/
def RandState.next (s : RandState) : Nat × RandState :=
  let x := (s.seed * 6364136223846793005 + 1442695040888963407) % (2 ^ 64)
  (x / (2 ^ 33), ⟨x⟩)

/-- Uniform draw in [0, n); for n = 0 the draw is 0. -/
def RandState.range (s : RandState) (n : Nat) : Nat × RandState :=
  if n = 0 then (0, s.next.2) else (s.next.1 % n, s.next.2)

/-- Seed the deterministic random source from the caller-supplied seed. -/
def RandState.ofSeed (seed : Int) : RandState :=
  ⟨(seed % (2 ^ 32)).toNat⟩

/-- Pick a uniformly random element of a list; none when the list is empty. -/
def pick {α : Type} (s : RandState) (xs : List α) : Option α × RandState :=
  (xs[(s.range xs.length).1]?, (s.range xs.length).2)

/-- Operand visibility: a constant or undef is visible everywhere, an
argument is visible when its index is in range, and a reference is visible
when the referenced id was defined earlier (is in `defs`). -/
def Operand.visibleIn (numArgs : Nat) (defs : List Nat) : Operand → Bool
  | .const _ _ => true
  | .undef _ => true
  | .arg i => decide (i < numArgs)
  | .ref id => decide (id ∈ defs)

/-- Well-formedness of an instruction sequence: every operand of every
instruction names a value visible at its point of use, where `defs`
accumulates the ids defined so far. -/
def instsWF (numArgs : Nat) (defs : List Nat) : List Instruction → Bool
  | [] => true
  | I :: rest =>
    I.operands.all (Operand.visibleIn numArgs defs) &&
      instsWF numArgs (defs ++ [I.id]) rest

/-- Terminator discipline over the isTerminator flags of a block: the block
is nonempty, exactly its last instruction is a terminator. -/
def termBools : List Bool → Bool
  | [] => false
  | [b] => b
  | b :: rest => !b && termBools rest

/-- A block ends with exactly one terminator Instruction. -/
def termWF (l : List Instruction) : Bool :=
  termBools (l.map (fun I => I.isTerminator))

/-- BasicBlock well-formedness: terminator discipline plus operand
visibility. -/
def BasicBlock.wf (numArgs : Nat) (b : BasicBlock) : Bool :=
  termWF b.insts && instsWF numArgs [] b.insts

/-- Function well-formedness: every block is well-formed. -/
def Function.wf (f : Function) : Bool :=
  f.blocks.all (BasicBlock.wf f.argTys.length)

/-- Module well-formedness: every function is well-formed. -/
def Module.wf (M : Module) : Bool :=
  M.funcs.all Function.wf

/-- Operation descriptor from the fuzzerop catalog: a type predicate over the
source operand, the types of the remaining operands, and the data the builder
uses to assemble a new (non-terminator) Instruction. -/
structure OpDescriptor where
  opcode : Nat
  sourcePred : Ty → Bool
  restTys : List Ty
  retTy : Ty

/-- Argument operands paired with their types, indices starting at i. -/
def argOperands : Nat → List Ty → List (Operand × Ty)
  | _, [] => []
  | i, t :: rest => (Operand.arg i, t) :: argOperands (i + 1) rest

/-- Values visible after the given instruction context: the function's
arguments and the results of the instructions already seen. -/
def visibleVals (argTys : List Ty) (ctx : List Instruction) : List (Operand × Ty) :=
  argOperands 0 argTys ++ ctx.map (fun I => (Operand.ref I.id, I.resultTy))

/-- The fixed universe of modelled types, used when materializing fresh
constants. -/
def allTys : List Ty := [Ty.i1, Ty.i32, Ty.i64, Ty.flt]

/-- A fresh id: one larger than any id in the block. -/
def freshId (insts : List Instruction) : Nat :=
  insts.foldr (fun I m => max I.id m) 0 + 1

/-- Modelled from the spec: InjectorIRStrategy::chooseOperation (declared at
IRMutator.h:80, body not in the supplied sources).  Filters the operation
catalog to the templates whose source predicate accepts the source operand's
type and picks one uniformly; none when the filtered set is empty. -/
def chooseOperation (Operations : List OpDescriptor) (srcTy : Ty)
    (s : RandState) : Option OpDescriptor × RandState :=
  pick s (Operations.filter (fun d => d.sourcePred srcTy))

/-- Modelled from the spec: a random insertion point in the block (an index
strictly below the block length, so the terminator stays last). -/
def pickInsertPos (b : BasicBlock) (s : RandState) : Nat × RandState :=
  s.range b.insts.length

/-- Modelled from the spec: pick a random Value visible at the insertion
point as the source operand (an existing visible value or a materialized
constant). -/
def sourceCands (argTys : List Ty) (b : BasicBlock) (pos : Nat) :
    List (Operand × Ty) :=
  visibleVals argTys (b.insts.take pos) ++
    allTys.map (fun t => (Operand.const t 0, t))

/-- Modelled from the spec: draw the source from the candidate pool; the
fallback constant never fires since the pool is nonempty. -/
def pickSource (argTys : List Ty) (b : BasicBlock) (pos : Nat)
    (s : RandState) : (Operand × Ty) × RandState :=
  ((pick s (sourceCands argTys b pos)).1.getD (Operand.const Ty.i32 0, Ty.i32),
   (pick s (sourceCands argTys b pos)).2)

/-- Materialize one operand of the required type: prefer an existing
same-typed visible value, else a fresh constant of that type. -/
def materialize (s : RandState) (vis : List (Operand × Ty)) (t : Ty) :
    Operand × RandState :=
  let cands := (vis.filter (fun p => decide (p.2 = t))).map (fun p => p.1)
  ((pick s cands).1.getD (Operand.const t 0), (pick s cands).2)

/-- Materialize the remaining operands of a chosen template in declared
order. -/
def materializeAll (s : RandState) (vis : List (Operand × Ty)) :
    List Ty → List Operand × RandState
  | [] => ([], s)
  | t :: ts =>
    ((materialize s vis t).1 ::
       (materializeAll (materialize s vis t).2 vis ts).1,
     (materializeAll (materialize s vis t).2 vis ts).2)

/-- Builder of a chosen operation template: assembles a new non-terminator
Instruction from the source operand and the materialized rest. -/
def buildOp (d : OpDescriptor) (newId : Nat) (src : Operand)
    (rest : List Operand) : Instruction :=
  { id := newId, opcode := d.opcode, resultTy := d.retTy,
    operands := src :: rest, isTerminator := false, flag := false, imm := 0 }

/-- Modelled from the spec: InjectorIRStrategy::mutate at BasicBlock scope
(declared at IRMutator.h:95, body not in the supplied sources).  Picks an
insertion point and a source value, filters the catalog via chooseOperation;
an empty candidate set is a no-op, otherwise the built instruction is
inserted at the insertion point. -/
def injectorMutateBlock (Operations : List OpDescriptor) (argTys : List Ty)
    (b : BasicBlock) (s : RandState) : BasicBlock × RandState :=
  if b.insts.isEmpty then (b, s) else
  let pos := (pickInsertPos b s).1
  let s1 := (pickInsertPos b s).2
  let src := (pickSource argTys b pos s1).1
  let s2 := (pickSource argTys b pos s1).2
  match (chooseOperation Operations src.2 s2).1 with
  | none => (b, (chooseOperation Operations src.2 s2).2)
  | some d =>
    let s3 := (chooseOperation Operations src.2 s2).2
    let vis := visibleVals argTys (b.insts.take pos)
    let newI := buildOp d (freshId b.insts) src.1 (materializeAll s3 vis d.restTys).1
    ({ insts := b.insts.take pos ++ newI :: b.insts.drop pos },
     (materializeAll s3 vis d.restTys).2)

/-- Replace block bi of a function. -/
def Function.setBlock (f : Function) (bi : Nat) (b : BasicBlock) : Function :=
  { f with blocks := f.blocks.set bi b }

/-- Replace function fi of a module. -/
def Module.setFunc (M : Module) (fi : Nat) (f : Function) : Module :=
  { funcs := M.funcs.set fi f }

/-- Modelled from the spec: InjectorIRStrategy::mutate at Function scope
(declared at IRMutator.h:94): pick a uniformly random BasicBlock and
forward. -/
def injectorMutateFunction (Operations : List OpDescriptor) (f : Function)
    (s : RandState) : Function × RandState :=
  let bi := (s.range f.blocks.length).1
  let s1 := (s.range f.blocks.length).2
  match f.blocks[bi]? with
  | none => (f, s1)
  | some b =>
    (f.setBlock bi (injectorMutateBlock Operations f.argTys b s1).1,
     (injectorMutateBlock Operations f.argTys b s1).2)

/-- Modelled from the spec: the default mutate at Module scope (IRMutator.h
lines 49-51): pick a uniformly random child Function and forward. -/
def mutateFunctionInModule (M : Module) (s : RandState)
    (g : Function → RandState → Function × RandState) : Module × RandState :=
  let fi := (s.range M.funcs.length).1
  let s1 := (s.range M.funcs.length).2
  match M.funcs[fi]? with
  | none => (M, s1)
  | some f =>
    (M.setFunc fi (g f s1).1, (g f s1).2)

/-- Injector at Module scope: default descent to Function, then the
overridden Function-level mutate. -/
def injectorMutateModule (Operations : List OpDescriptor) (M : Module)
    (s : RandState) : Module × RandState :=
  mutateFunctionInModule M s (injectorMutateFunction Operations)

/-- Rewire one operand after a deletion: a reference to the deleted id is
replaced by a random same-typed visible value, or a fresh undef of the
deleted instruction's type when none exists; every other operand is kept. -/
def rewireOne (s : RandState) (vis : List (Operand × Ty)) (vid : Nat)
    (vty : Ty) : Operand → Operand × RandState
  | .ref id =>
    if id = vid then
      let cands := (vis.filter (fun p => decide (p.2 = vty))).map (fun p => p.1)
      ((pick s cands).1.getD (Operand.undef vty), (pick s cands).2)
    else (Operand.ref id, s)
  | o => (o, s)

/-- Rewire every operand of an instruction's operand list. -/
def rewireOps (s : RandState) (vis : List (Operand × Ty)) (vid : Nat)
    (vty : Ty) : List Operand → List Operand × RandState
  | [] => ([], s)
  | o :: rest =>
    ((rewireOne s vis vid vty o).1 ::
       (rewireOps (rewireOne s vis vid vty o).2 vis vid vty rest).1,
     (rewireOps (rewireOne s vis vid vty o).2 vis vid vty rest).2)

/-- Rewire one instruction. -/
def rewireInst (s : RandState) (vis : List (Operand × Ty)) (vid : Nat)
    (vty : Ty) (I : Instruction) : Instruction × RandState :=
  ({ I with operands := (rewireOps s vis vid vty I.operands).1 },
   (rewireOps s vis vid vty I.operands).2)

/-- Rewire the instructions following a deletion, threading the visible
context (the instructions already emitted) left to right. -/
def rewireList (argTys : List Ty) (ctx : List Instruction)
    (victim : Instruction) (s : RandState) :
    List Instruction → List Instruction × RandState
  | [] => ([], s)
  | I :: rest =>
    let vis := visibleVals argTys ctx
    let I' := (rewireInst s vis victim.id victim.resultTy I).1
    let s1 := (rewireInst s vis victim.id victim.resultTy I).2
    (I' :: (rewireList argTys (ctx ++ [I']) victim s1 rest).1,
     (rewireList argTys (ctx ++ [I']) victim s1 rest).2)

/-- Modelled from the spec: InstDeleterIRStrategy::mutate at Instruction
scope (declared at IRMutator.h:106): remove the instruction at index k from
the block and rewire every use of its result to another visible
type-compatible value or a fresh undef.  Terminators are never deleted. -/
def deleteAt (argTys : List Ty) (b : BasicBlock) (k : Nat) (s : RandState) :
    BasicBlock × RandState :=
  match b.insts[k]? with
  | none => (b, s)
  | some victim =>
    if victim.isTerminator then (b, s)
    else
      let pre := b.insts.take k
      let post := b.insts.drop (k + 1)
      ({ insts := pre ++ (rewireList argTys pre victim s post).1 },
       (rewireList argTys pre victim s post).2)

/-- Indices of the non-terminator instructions of a list, starting at k. -/
def nonTermIdxs : Nat → List Instruction → List Nat
  | _, [] => []
  | k, I :: rest =>
    (if I.isTerminator then [] else [k]) ++ nonTermIdxs (k + 1) rest

/-- Positions (block index, instruction index) of every non-terminator
instruction of a function, block indices starting at bi. -/
def nonTermPositions : Nat → List BasicBlock → List (Nat × Nat)
  | _, [] => []
  | bi, b :: rest =>
    (nonTermIdxs 0 b.insts).map (fun k => (bi, k)) ++
      nonTermPositions (bi + 1) rest

/-- Modelled from the spec: InstDeleterIRStrategy::mutate at Function scope
(declared at IRMutator.h:105): pick a uniformly random non-terminator
Instruction and forward; an empty candidate set is a no-op. -/
def deleterMutateFunction (f : Function) (s : RandState) :
    Function × RandState :=
  let s1 := (pick s (nonTermPositions 0 f.blocks)).2
  match (pick s (nonTermPositions 0 f.blocks)).1 with
  | none => (f, s1)
  | some c =>
    match f.blocks[c.1]? with
    | none => (f, s1)
    | some b =>
      (f.setBlock c.1 (deleteAt f.argTys b c.2 s1).1,
       (deleteAt f.argTys b c.2 s1).2)

/-- Deleter at Module scope: default descent to Function, then the
overridden Function-level mutate. -/
def deleterMutateModule (M : Module) (s : RandState) : Module × RandState :=
  mutateFunctionInModule M s deleterMutateFunction

/-- Type of an operand relative to a function's arguments and a visible
instruction context. -/
def operandTy (argTys : List Ty) (ctx : List Instruction) :
    Operand → Option Ty
  | .const t _ => some t
  | .undef t => some t
  | .arg i => argTys[i]?
  | .ref id => (ctx.find? (fun I => decide (I.id = id))).map (fun I => I.resultTy)

/-- Modelled from the spec: InstModificationIRStrategy::mutate at
Instruction scope (declared at IRMutator.h:118): perform exactly one of (a)
toggle a metadata flag, (b) replace one operand with a different visible
Value of the same type, (c) change an immediate field to another legal
value. -/
def modifyInst (argTys : List Ty) (ctx : List Instruction) (I : Instruction)
    (s : RandState) : Instruction × RandState :=
  let c := (s.range 3).1
  let s1 := (s.range 3).2
  if c = 0 then ({ I with flag := !I.flag }, s1)
  else if c = 1 then
    let j := (s1.range I.operands.length).1
    let s2 := (s1.range I.operands.length).2
    match I.operands[j]? with
    | none => (I, s2)
    | some o =>
      match operandTy argTys ctx o with
      | none => (I, s2)
      | some t =>
        let cands := ((visibleVals argTys ctx).filter
          (fun p => decide (p.2 = t) && decide (¬p.1 = o))).map (fun p => p.1)
        match (pick s2 cands).1 with
        | none => (I, (pick s2 cands).2)
        | some o' =>
          ({ I with operands := I.operands.set j o' }, (pick s2 cands).2)
  else ({ I with imm := I.imm + 1 }, s1)

/-- Modifier at BasicBlock scope: default descent, pick a uniformly random
child Instruction and forward to the overridden Instruction-level mutate. -/
def modifierMutateBlock (argTys : List Ty) (b : BasicBlock) (s : RandState) :
    BasicBlock × RandState :=
  let k := (s.range b.insts.length).1
  let s1 := (s.range b.insts.length).2
  match b.insts[k]? with
  | none => (b, s1)
  | some I =>
    ({ insts := b.insts.set k (modifyInst argTys (b.insts.take k) I s1).1 },
     (modifyInst argTys (b.insts.take k) I s1).2)

/-- Modifier at Function scope: default descent, pick a uniformly random
child BasicBlock and forward. -/
def modifierMutateFunction (f : Function) (s : RandState) :
    Function × RandState :=
  let bi := (s.range f.blocks.length).1
  let s1 := (s.range f.blocks.length).2
  match f.blocks[bi]? with
  | none => (f, s1)
  | some b =>
    (f.setBlock bi (modifierMutateBlock f.argTys b s1).1,
     (modifierMutateBlock f.argTys b s1).2)

/-- Modifier at Module scope: default descent to Function then downward. -/
def modifierMutateModule (M : Module) (s : RandState) : Module × RandState :=
  mutateFunctionInModule M s modifierMutateFunction

/-- The three concrete strategies of the header. -/
inductive Strategy where
  | injector (Operations : List OpDescriptor)
  | deleter
  | modifier

/-- Embedded from IRMutator.h lines 88-91: InjectorIRStrategy::getWeight
returns Operations.size(). -/
def InjectorIRStrategy.getWeight (Operations : List OpDescriptor)
    (CurrentSize MaxSize : Nat) (CurrentWeight : Nat) : Nat :=
  Operations.length

/-- Modelled from the spec: InstDeleterIRStrategy::getWeight (declared at
IRMutator.h:101-102, body not in the supplied sources).  The spec fixes only
the policy: the weight is monotonically non-decreasing in
CurrentSize/MaxSize for fixed CurrentWeight, biasing toward deletion as the
module approaches the budget.  This model uses a linear ramp that saturates
at the budget. -/
def InstDeleterIRStrategy.getWeight (CurrentSize MaxSize CurrentWeight : Nat) :
    Nat :=
  if MaxSize ≤ CurrentSize then CurrentWeight * 100
  else CurrentWeight * CurrentSize / MaxSize

/-- Embedded from IRMutator.h lines 112-115:
InstModificationIRStrategy::getWeight returns 4. -/
def InstModificationIRStrategy.getWeight
    (CurrentSize MaxSize CurrentWeight : Nat) : Nat :=
  4

/-- Weight of a strategy, dispatching to the per-class getWeight. -/
def Strategy.getWeight : Strategy → Nat → Nat → Nat → Nat
  | .injector ops, c, m, w => InjectorIRStrategy.getWeight ops c m w
  | .deleter, c, m, w => InstDeleterIRStrategy.getWeight c m w
  | .modifier, c, m, w => InstModificationIRStrategy.getWeight c m w

/-- Module-level mutate of a strategy, entering its forwarding chain. -/
def Strategy.mutate : Strategy → Module → RandState → Module × RandState
  | .injector ops, M, s => injectorMutateModule ops M s
  | .deleter, M, s => deleterMutateModule M s
  | .modifier, M, s => modifierMutateModule M s

/-- Modelled from the spec: the driver's running weight total, evaluating
each strategy's weight in registration order with the running cumulative
weight passed as CurrentWeight. -/
def totalWeight (cur maxS : Nat) : List Strategy → Nat → Nat
  | [], acc => acc
  | st :: rest, acc => totalWeight cur maxS rest (acc + st.getWeight cur maxS acc)

/-- Modelled from the spec: locate the drawn value x in the cumulative
weight ranges, returning the selected strategy and its registration index. -/
def selectStrategy (cur maxS x : Nat) :
    List Strategy → Nat → Option (Nat × Strategy)
  | [], _ => none
  | st :: rest, acc =>
    let w := st.getWeight cur maxS acc
    if x < acc + w then some (0, st)
    else (selectStrategy cur maxS x rest (acc + w)).map (fun p => (p.1 + 1, p.2))

/-- Modelled from the spec: IRMutator::mutateModule (declared at
IRMutator.h:73, body not in the supplied sources).  Seeds a deterministic
random source from Seed, evaluates the weights in registration order
maintaining a running total, selects one strategy by a uniform draw in
[0, total), and invokes the selected strategy's Module-level mutate. -/
def mutateModule (Strategies : List Strategy) (M : Module) (Seed : Int)
    (CurSize MaxSize : Nat) : Module :=
  let s0 := RandState.ofSeed Seed
  let total := totalWeight CurSize MaxSize Strategies 0
  let x := (s0.range total).1
  let s1 := (s0.range total).2
  match selectStrategy CurSize MaxSize x Strategies 0 with
  | none => M
  | some p => (p.2.mutate M s1).1

/-- Override table of a strategy, modelling the virtual-dispatch hierarchy
of IRMutationStrategy: none at a granularity means the base-class default of
the header is used. -/
structure IRMutationStrategy where
  mutateModuleOverride : Option (Module → RandState → Module × RandState)
  mutateFunctionOverride : Option (Function → RandState → Function × RandState)
  mutateBasicBlockOverride : Option (BasicBlock → RandState → BasicBlock × RandState)
  mutateInstructionOverride : Option (Instruction → RandState → Instruction × RandState)

/-- Outcome of a dispatched mutate call: a result, or the fatal
non-recoverable contract violation of llvm_unreachable. -/
inductive MutateOutcome (α : Type) where
  | ok (a : α) (s : RandState)
  | fatal (msg : String)

/-- Embedded from IRMutator.h lines 54-56: the Instruction-level mutate uses
the override when present; without an override the base class hits
llvm_unreachable("Strategy does not implement any mutators"). -/
def IRMutationStrategy.mutateInstruction (st : IRMutationStrategy)
    (I : Instruction) (s : RandState) : MutateOutcome Instruction :=
  match st.mutateInstructionOverride with
  | some f => MutateOutcome.ok (f I s).1 (f I s).2
  | none => MutateOutcome.fatal "Strategy does not implement any mutators"

/-- Embedded from IRMutator.h lines 63-74: the IRMutator owns the allowed
types and the strategy list; its constructor stores both and performs no
validation of the strategies. -/
structure IRMutator where
  AllowedTypes : List Ty
  Strategies : List IRMutationStrategy

/-- A strategy overriding no granularity at all. -/
def noOverrideStrategy : IRMutationStrategy :=
  { mutateModuleOverride := none, mutateFunctionOverride := none,
    mutateBasicBlockOverride := none, mutateInstructionOverride := none }

/-- Context of the host compiler, owning the type uniquing table; the model
records the types a successful parse registered. -/
structure LLVMContext where
  typeTable : List Ty
deriving DecidableEq

/-- Byte tag of a type. -/
def encTy : Ty → Nat
  | .i1 => 0
  | .i32 => 1
  | .i64 => 2
  | .flt => 3

/-- Decode a type tag. -/
def decodeTy : Nat → Option Ty
  | 0 => some Ty.i1
  | 1 => some Ty.i32
  | 2 => some Ty.i64
  | 3 => some Ty.flt
  | _ => none

/-- Magic header of the modelled bitcode encoding. -/
def magicBytes : List Nat := [66, 67, 192, 222]

/-- Modelled from the spec: byte encoding of one operand. -/
def encodeOperand : Operand → List Nat
  | .const t n => [0, encTy t, n.toNat % 256]
  | .undef t => [1, encTy t, 0]
  | .arg i => [2, i, 0]
  | .ref id => [3, id, 0]

/-- Modelled from the spec: byte encoding of one instruction. -/
def encodeInst (I : Instruction) : List Nat :=
  [I.id, I.opcode, encTy I.resultTy, if I.isTerminator then 1 else 0,
   if I.flag then 1 else 0, I.imm.toNat % 256, I.operands.length] ++
    (I.operands.map encodeOperand).flatten

/-- Modelled from the spec: byte encoding of one block. -/
def encodeBlock (b : BasicBlock) : List Nat :=
  b.insts.length :: (b.insts.map encodeInst).flatten

/-- Modelled from the spec: byte encoding of one function. -/
def encodeFunction (f : Function) : List Nat :=
  f.argTys.length :: (f.argTys.map encTy ++
    (f.blocks.length :: (f.blocks.map encodeBlock).flatten))

/-- Modelled from the spec: the bitcode printer's byte encoding of a module,
a magic header followed by the function records. -/
def encodeModule (M : Module) : List Nat :=
  magicBytes ++ (M.funcs.length :: (M.funcs.map encodeFunction).flatten)

/-- Modelled from the spec: writeModule (declared at IRMutator.h:136, body
not in the supplied sources).  Returns the number of bytes written; when the
encoded module size exceeds MaxSize it returns 0 and leaves Dest unchanged,
otherwise it overwrites the first encoded-size bytes of Dest. -/
def writeModule (M : Module) (Dest : List Nat) (MaxSize : Nat) :
    Nat × List Nat :=
  let enc := encodeModule M
  if MaxSize < enc.length then (0, Dest)
  else (enc.length, enc ++ Dest.drop enc.length)

/-- Decode one operand record. -/
def decodeOperand : List Nat → Option (Operand × List Nat)
  | 0 :: t :: n :: rest => (decodeTy t).map (fun ty => (Operand.const ty (Int.ofNat n), rest))
  | 1 :: t :: _ :: rest => (decodeTy t).map (fun ty => (Operand.undef ty, rest))
  | 2 :: i :: _ :: rest => some (Operand.arg i, rest)
  | 3 :: id :: _ :: rest => some (Operand.ref id, rest)
  | _ => none

/-- Decode a counted sequence of operand records. -/
def decodeOperands : Nat → List Nat → Option (List Operand × List Nat)
  | 0, rest => some ([], rest)
  | n + 1, bytes =>
    match decodeOperand bytes with
    | none => none
    | some p => (decodeOperands n p.2).map (fun q => (p.1 :: q.1, q.2))

/-- Decode one instruction record; any truncation yields none. -/
def decodeInst : List Nat → Option (Instruction × List Nat)
  | i :: op :: t :: term :: fl :: im :: cnt :: rest =>
    match decodeTy t with
    | none => none
    | some ty =>
      (decodeOperands cnt rest).map (fun p =>
        ({ id := i, opcode := op, resultTy := ty,
           operands := p.1, isTerminator := decide (term = 1),
           flag := decide (fl = 1), imm := Int.ofNat im }, p.2))
  | _ => none

/-- Decode a counted sequence of instruction records. -/
def decodeInsts : Nat → List Nat → Option (List Instruction × List Nat)
  | 0, rest => some ([], rest)
  | n + 1, bytes =>
    match decodeInst bytes with
    | none => none
    | some p => (decodeInsts n p.2).map (fun q => (p.1 :: q.1, q.2))

/-- Decode one block record. -/
def decodeBlock : List Nat → Option (BasicBlock × List Nat)
  | cnt :: rest => (decodeInsts cnt rest).map (fun p => (⟨p.1⟩, p.2))
  | _ => none

/-- Decode a counted sequence of block records. -/
def decodeBlocks : Nat → List Nat → Option (List BasicBlock × List Nat)
  | 0, rest => some ([], rest)
  | n + 1, bytes =>
    match decodeBlock bytes with
    | none => none
    | some p => (decodeBlocks n p.2).map (fun q => (p.1 :: q.1, q.2))

/-- Decode a counted sequence of type tags. -/
def decodeTys : Nat → List Nat → Option (List Ty × List Nat)
  | 0, rest => some ([], rest)
  | n + 1, t :: rest =>
    match decodeTy t with
    | none => none
    | some ty => (decodeTys n rest).map (fun q => (ty :: q.1, q.2))
  | _ + 1, [] => none

/-- Decode one function record. -/
def decodeFunction : List Nat → Option (Function × List Nat)
  | nA :: rest =>
    match decodeTys nA rest with
    | none => none
    | some p =>
      match p.2 with
      | nB :: rest2 =>
        (decodeBlocks nB rest2).map (fun q => (⟨p.1, q.1⟩, q.2))
      | [] => none
  | _ => none

/-- Decode a counted sequence of function records. -/
def decodeFunctions : Nat → List Nat → Option (List Function × List Nat)
  | 0, rest => some ([], rest)
  | n + 1, bytes =>
    match decodeFunction bytes with
    | none => none
    | some p => (decodeFunctions n p.2).map (fun q => (p.1 :: q.1, q.2))

/-- Modelled from the spec: parseModule (declared at IRMutator.h:126-127,
body not in the supplied sources).  A total decoder of the byte encoding: it
returns none on any malformed or truncated input, leaving the supplied
Context unchanged and reusable; on success it returns the module and the
Context extended with the types the parse registered. -/
def parseModule (Data : List Nat) (Context : LLVMContext) :
    Option Module × LLVMContext :=
  if Data.take 4 = magicBytes then
    match Data.drop 4 with
    | [] => (none, Context)
    | cnt :: rest =>
      match decodeFunctions cnt rest with
      | none => (none, Context)
      | some p =>
        (some ⟨p.1⟩,
         ⟨Context.typeTable ++ (p.1.map (fun f => f.argTys)).flatten⟩)
  else (none, Context)

/-- A concrete terminator instruction, used as a test fixture. -/
def termInst : Instruction :=
  { id := 0, opcode := 99, resultTy := Ty.i1, operands := [],
    isTerminator := true, flag := false, imm := 0 }

/-- A concrete well-formed block holding only its terminator. -/
def blk0 : BasicBlock := ⟨[termInst]⟩

/-- A concrete well-formed function. -/
def fn0 : Function := { argTys := [Ty.i32], blocks := [blk0] }

/-- A concrete well-formed module. -/
def M0 : Module := { funcs := [fn0] }

/-- An operation template whose source predicate rejects every type. -/
def rejectAllOp : OpDescriptor :=
  { opcode := 7, sourcePred := fun _ => false, restTys := [], retTy := Ty.i32 }

/-- An operation template accepting every source type. -/
def acceptAllOp : OpDescriptor :=
  { opcode := 1, sourcePred := fun _ => true, restTys := [Ty.i32],
    retTy := Ty.i32 }

/-
Helper lemmas.
-/

theorem range_lt (s : RandState) {n : Nat} (h : 0 < n) : (s.range n).1 < n := by
  unfold RandState.range
  rw [if_neg (by omega)]
  exact Nat.mod_lt _ h

theorem pick_mem {α : Type} {s : RandState} {xs : List α} {a : α}
    (h : (pick s xs).1 = some a) : a ∈ xs := by
  unfold pick at h
  exact List.getElem?_mem h

theorem pick_nil {α : Type} (s : RandState) : (pick s ([] : List α)).1 = none := by
  rfl

theorem list_set_self {α : Type} :
    ∀ (l : List α) (k : Nat) (a : α), l[k]? = some a → l.set k a = l := by
  intro l
  induction l with
  | nil => intro k a h; simp at h
  | cons x xs ih =>
    intro k a h
    cases k with
    | zero => simp at h; simp [h]
    | succ p => simp at h; simp [ih p a h]

theorem list_all_set {α : Type} (p : α → Bool) :
    ∀ (l : List α) (k : Nat) (a : α),
      l.all p = true → p a = true → (l.set k a).all p = true := by
  intro l
  induction l with
  | nil => intro k a h _; simp
  | cons x xs ih =>
    intro k a h ha
    rw [List.all_cons, Bool.and_eq_true] at h
    cases k with
    | zero =>
      rw [List.set_cons_zero, List.all_cons, Bool.and_eq_true]
      exact ⟨ha, h.2⟩
    | succ p' =>
      rw [List.set_cons_succ, List.all_cons, Bool.and_eq_true]
      exact ⟨h.1, ih p' a h.2 ha⟩

theorem drop_cons_of_get {α : Type} :
    ∀ (l : List α) (k : Nat) (a : α),
      l[k]? = some a → l.drop k = a :: l.drop (k + 1) := by
  intro l
  induction l with
  | nil => intro k a h; simp at h
  | cons x xs ih =>
    intro k a h
    cases k with
    | zero => simp at h; simp [h]
    | succ p => simp at h; simpa using ih p a h

theorem visibleIn_mono {n : Nat} {D D' : List Nat}
    (hsub : ∀ a, a ∈ D → a ∈ D') :
    ∀ o : Operand, o.visibleIn n D = true → o.visibleIn n D' = true := by
  intro o h
  cases o with
  | const t m => rfl
  | undef t => rfl
  | arg i => exact h
  | ref id =>
    simp [Operand.visibleIn] at h ⊢
    exact hsub id h

theorem instsWF_mono {n : Nat} :
    ∀ (l : List Instruction) (D D' : List Nat),
      (∀ a, a ∈ D → a ∈ D') → instsWF n D l = true → instsWF n D' l = true := by
  intro l
  induction l with
  | nil => intro D D' _ _; rfl
  | cons I rest ih =>
    intro D D' hsub h
    simp only [instsWF, Bool.and_eq_true, List.all_eq_true] at h ⊢
    refine ⟨fun o ho => visibleIn_mono hsub o (h.1 o ho), ?_⟩
    refine ih (D ++ [I.id]) (D' ++ [I.id]) ?_ h.2
    intro a ha
    rcases List.mem_append.mp ha with ha | ha
    · exact List.mem_append.mpr (Or.inl (hsub a ha))
    · exact List.mem_append.mpr (Or.inr ha)

theorem instsWF_append {n : Nat} :
    ∀ (l1 l2 : List Instruction) (D : List Nat),
      instsWF n D (l1 ++ l2) =
        (instsWF n D l1 && instsWF n (D ++ l1.map (fun I => I.id)) l2) := by
  intro l1
  induction l1 with
  | nil => intro l2 D; simp [instsWF]
  | cons I rest ih =>
    intro l2 D
    have h1 : instsWF n D ((I :: rest) ++ l2) =
        (I.operands.all (Operand.visibleIn n D) &&
          instsWF n (D ++ [I.id]) (rest ++ l2)) := rfl
    have h2 : instsWF n D (I :: rest) =
        (I.operands.all (Operand.visibleIn n D) &&
          instsWF n (D ++ [I.id]) rest) := rfl
    rw [h1, h2, ih l2 (D ++ [I.id]), Bool.and_assoc, List.append_assoc,
      List.singleton_append, List.map_cons]

theorem termBools_cons (b : Bool) {xs : List Bool} (h : xs ≠ []) :
    termBools (b :: xs) = (!b && termBools xs) := by
  cases xs with
  | nil => exact absurd rfl h
  | cons c rest => rfl

theorem termBools_insert :
    ∀ (l : List Bool) (pos : Nat), termBools l = true → pos < l.length →
      termBools (l.take pos ++ false :: l.drop pos) = true := by
  intro l
  induction l with
  | nil => intro pos _ hlt; simp at hlt
  | cons b rest ih =>
    intro pos h hlt
    cases pos with
    | zero =>
      simp only [List.take, List.drop, List.nil_append]
      rw [termBools_cons false (by simp)]
      simpa using h
    | succ p =>
      have hr : rest ≠ [] := by
        intro he; subst he; simp at hlt
      have hcons := termBools_cons b hr
      rw [hcons] at h
      simp only [Bool.and_eq_true] at h
      have hih := ih p h.2 (by simpa using hlt)
      simp only [List.take, List.drop, List.cons_append]
      rw [termBools_cons b (by simp)]
      simp [hih, h.1]

theorem termBools_delete :
    ∀ (l : List Bool) (k : Nat), termBools l = true →
      l[k]? = some false →
      termBools (l.take k ++ l.drop (k + 1)) = true := by
  intro l
  induction l with
  | nil => intro k _ hget; simp at hget
  | cons b rest ih =>
    intro k h hget
    cases k with
    | zero =>
      simp at hget
      subst hget
      simp only [List.take, List.drop, List.nil_append]
      cases rest with
      | nil => simp [termBools] at h
      | cons c rest' =>
        rw [termBools_cons false (by simp)] at h
        simpa using h
    | succ p =>
      rw [List.getElem?_cons_succ] at hget
      have hr : rest ≠ [] := by
        intro he; subst he; simp at hget
      rw [termBools_cons b hr] at h
      simp only [Bool.and_eq_true] at h
      have hih := ih p h.2 hget
      simp only [List.take, List.drop, List.cons_append]
      cases ht : rest.take p ++ rest.drop (p + 1) with
      | nil => rw [ht] at hih; simp [termBools] at hih
      | cons c cs =>
        rw [ht] at hih
        rw [termBools_cons b (by simp [ht])]
        simp [hih, h.1]

theorem argOperands_mem :
    ∀ (tys : List Ty) (i : Nat) (o : Operand) (t : Ty),
      (o, t) ∈ argOperands i tys → ∃ m, o = Operand.arg m ∧ m < i + tys.length := by
  intro tys
  induction tys with
  | nil => intro i o t h; simp [argOperands] at h
  | cons t' rest ih =>
    intro i o t h
    simp only [argOperands, List.mem_cons, Prod.mk.injEq] at h
    rcases h with ⟨h1, _⟩ | h
    · exact ⟨i, h1, by simp⟩
    · obtain ⟨m, hm, hlt⟩ := ih (i + 1) o t h
      exact ⟨m, hm, by simp at hlt ⊢; omega⟩

theorem visibleVals_visible {argTys : List Ty} {ctx : List Instruction}
    {o : Operand} {t : Ty} (h : (o, t) ∈ visibleVals argTys ctx)
    {D : List Nat} (hctx : ∀ I, I ∈ ctx → I.id ∈ D) :
    o.visibleIn argTys.length D = true := by
  rcases List.mem_append.mp h with h | h
  · obtain ⟨m, rfl, hlt⟩ := argOperands_mem argTys 0 o t h
    simp [Operand.visibleIn]
    omega
  · rcases List.mem_map.mp h with ⟨I, hI, heq⟩
    have ho : o = Operand.ref I.id := by
      have := congrArg Prod.fst heq
      simpa using this.symm
    subst ho
    simp [Operand.visibleIn]
    exact hctx I hI

theorem materialize_visible {n : Nat} {D : List Nat} {vis : List (Operand × Ty)}
    (hvis : ∀ p, p ∈ vis → Operand.visibleIn n D p.1 = true)
    (s : RandState) (t : Ty) :
    Operand.visibleIn n D (materialize s vis t).1 = true := by
  have hm : (materialize s vis t).1 =
      (pick s ((vis.filter (fun p => decide (p.2 = t))).map (fun p => p.1))).1.getD
        (Operand.const t 0) := rfl
  rw [hm]
  cases hp : (pick s ((vis.filter (fun p => decide (p.2 = t))).map (fun p => p.1))).1 with
  | none => rfl
  | some o =>
    rw [Option.getD_some]
    rcases List.mem_map.mp (pick_mem hp) with ⟨p, hpmem, rfl⟩
    exact hvis p (List.mem_of_mem_filter hpmem)

theorem materializeAll_visible {n : Nat} {D : List Nat} {vis : List (Operand × Ty)}
    (hvis : ∀ p, p ∈ vis → Operand.visibleIn n D p.1 = true) :
    ∀ (tys : List Ty) (s : RandState),
      ((materializeAll s vis tys).1).all (Operand.visibleIn n D) = true := by
  intro tys
  induction tys with
  | nil => intro s; rfl
  | cons t ts ih =>
    intro s
    have he : (materializeAll s vis (t :: ts)).1 =
        (materialize s vis t).1 ::
          (materializeAll (materialize s vis t).2 vis ts).1 := rfl
    rw [he, List.all_cons, Bool.and_eq_true]
    exact ⟨materialize_visible hvis s t, ih _⟩

theorem pickSource_visible (argTys : List Ty) (b : BasicBlock) (pos : Nat)
    (s : RandState) {D : List Nat}
    (hctx : ∀ I, I ∈ b.insts.take pos → I.id ∈ D) :
    Operand.visibleIn argTys.length D (pickSource argTys b pos s).1.1 = true := by
  have hm : (pickSource argTys b pos s).1 =
      (pick s (sourceCands argTys b pos)).1.getD (Operand.const Ty.i32 0, Ty.i32) := rfl
  rw [hm]
  cases hp : (pick s (sourceCands argTys b pos)).1 with
  | none => rfl
  | some p =>
    rw [Option.getD_some]
    rcases List.mem_append.mp (pick_mem hp) with hmem | hmem
    · exact visibleVals_visible (by rw [Prod.mk.eta]; exact hmem) hctx
    · rcases List.mem_map.mp hmem with ⟨t, _, hpe⟩
      rw [← hpe]
      rfl

theorem block_insert_wf {n : Nat} {b : BasicBlock} (h : BasicBlock.wf n b = true)
    (pos : Nat) (hpos : pos < b.insts.length) (newI : Instruction)
    (hterm : newI.isTerminator = false)
    (hops : newI.operands.all
      (Operand.visibleIn n ((b.insts.take pos).map (fun I => I.id))) = true) :
    BasicBlock.wf n ⟨b.insts.take pos ++ newI :: b.insts.drop pos⟩ = true := by
  unfold BasicBlock.wf at h ⊢
  rw [Bool.and_eq_true] at h ⊢
  obtain ⟨hterm0, hwf0⟩ := h
  constructor
  · unfold termWF at hterm0 ⊢
    show termBools ((b.insts.take pos ++ newI :: b.insts.drop pos).map
      (fun I => I.isTerminator)) = true
    rw [List.map_append, List.map_cons, List.map_take, List.map_drop, hterm]
    exact termBools_insert _ pos hterm0 (by rw [List.length_map]; exact hpos)
  · show instsWF n [] (b.insts.take pos ++ newI :: b.insts.drop pos) = true
    rw [instsWF_append, List.nil_append, Bool.and_eq_true]
    have hdecomp := instsWF_append (n := n) (b.insts.take pos) (b.insts.drop pos)
      ([] : List Nat)
    rw [List.take_append_drop, List.nil_append] at hdecomp
    rw [hdecomp, Bool.and_eq_true] at hwf0
    refine ⟨hwf0.1, ?_⟩
    have hstep : instsWF n ((b.insts.take pos).map (fun I => I.id))
        (newI :: b.insts.drop pos) =
          (newI.operands.all
              (Operand.visibleIn n ((b.insts.take pos).map (fun I => I.id))) &&
            instsWF n ((b.insts.take pos).map (fun I => I.id) ++ [newI.id])
              (b.insts.drop pos)) := rfl
    rw [hstep, Bool.and_eq_true]
    refine ⟨hops, ?_⟩
    exact instsWF_mono (b.insts.drop pos) _ _
      (fun a ha => List.mem_append.mpr (Or.inl ha)) hwf0.2

theorem injectorMutateBlock_wf (ops : List OpDescriptor) (argTys : List Ty)
    (b : BasicBlock) (s : RandState)
    (h : BasicBlock.wf argTys.length b = true) :
    BasicBlock.wf argTys.length (injectorMutateBlock ops argTys b s).1 = true := by
  simp only [injectorMutateBlock]
  split
  · exact h
  next hne =>
    split
    · exact h
    next d heq =>
      have hlen : 0 < b.insts.length := by
        simp only [List.isEmpty_iff] at hne
        exact List.length_pos.mpr hne
      have hctx : ∀ I, I ∈ b.insts.take (pickInsertPos b s).1 →
          I.id ∈ (b.insts.take (pickInsertPos b s).1).map (fun I => I.id) :=
        fun I hI => List.mem_map.mpr ⟨I, hI, rfl⟩
      apply block_insert_wf h _ (range_lt s hlen)
      · rfl
      · rw [show (buildOp d (freshId b.insts) _ _).operands =
            (pickSource argTys b (pickInsertPos b s).1 (pickInsertPos b s).2).1.1 ::
              (materializeAll _ (visibleVals argTys (b.insts.take (pickInsertPos b s).1))
                d.restTys).1 from rfl]
        rw [List.all_cons, Bool.and_eq_true]
        refine ⟨pickSource_visible argTys b _ _ hctx, ?_⟩
        apply materializeAll_visible
        intro p hp
        have hpp : (p.1, p.2) ∈ visibleVals argTys (b.insts.take (pickInsertPos b s).1) := by
          rw [Prod.mk.eta]; exact hp
        exact visibleVals_visible hpp hctx

theorem instsWF_cons {n : Nat} (D : List Nat) (I : Instruction)
    (rest : List Instruction) :
    instsWF n D (I :: rest) =
      (I.operands.all (Operand.visibleIn n D) &&
        instsWF n (D ++ [I.id]) rest) := rfl

theorem rewireOne_visible {n : Nat} {D D' : List Nat} {vis : List (Operand × Ty)}
    {vid : Nat} {vty : Ty}
    (hvis : ∀ p, p ∈ vis → Operand.visibleIn n D' p.1 = true)
    (hD : ∀ a, a ∈ D → a = vid ∨ a ∈ D')
    (s : RandState) (o : Operand) (ho : o.visibleIn n D = true) :
    Operand.visibleIn n D' (rewireOne s vis vid vty o).1 = true := by
  cases o with
  | const t m => rfl
  | undef t => rfl
  | arg i => exact ho
  | ref id =>
    simp only [rewireOne]
    split
    · cases hp : (pick s ((vis.filter (fun p => decide (p.2 = vty))).map
        (fun p => p.1))).1 with
      | none => rfl
      | some o' =>
        rw [Option.getD_some]
        rcases List.mem_map.mp (pick_mem hp) with ⟨p, hpmem, rfl⟩
        exact hvis p (List.mem_of_mem_filter hpmem)
    · next hid =>
      simp only [Operand.visibleIn, decide_eq_true_eq] at ho ⊢
      rcases hD id ho with hcase | hcase
      · exact absurd hcase hid
      · exact hcase

theorem rewireOps_visible {n : Nat} {D D' : List Nat} {vis : List (Operand × Ty)}
    {vid : Nat} {vty : Ty}
    (hvis : ∀ p, p ∈ vis → Operand.visibleIn n D' p.1 = true)
    (hD : ∀ a, a ∈ D → a = vid ∨ a ∈ D') :
    ∀ (ops : List Operand) (s : RandState),
      ops.all (Operand.visibleIn n D) = true →
      ((rewireOps s vis vid vty ops).1).all (Operand.visibleIn n D') = true := by
  intro ops
  induction ops with
  | nil => intro s _; rfl
  | cons o rest ih =>
    intro s hall
    rw [List.all_cons, Bool.and_eq_true] at hall
    have he : (rewireOps s vis vid vty (o :: rest)).1 =
        (rewireOne s vis vid vty o).1 ::
          (rewireOps (rewireOne s vis vid vty o).2 vis vid vty rest).1 := rfl
    rw [he, List.all_cons, Bool.and_eq_true]
    exact ⟨rewireOne_visible hvis hD s o hall.1, ih _ hall.2⟩

theorem rewireList_wf (argTys : List Ty) (victim : Instruction) :
    ∀ (post ctx : List Instruction) (D : List Nat) (s : RandState),
      (∀ a, a ∈ D → a = victim.id ∨ a ∈ ctx.map (fun J => J.id)) →
      instsWF argTys.length D post = true →
      instsWF argTys.length (ctx.map (fun J => J.id))
        (rewireList argTys ctx victim s post).1 = true := by
  intro post
  induction post with
  | nil => intro ctx D s _ _; rfl
  | cons I rest ih =>
    intro ctx D s hD hwf
    rw [instsWF_cons, Bool.and_eq_true] at hwf
    have he : (rewireList argTys ctx victim s (I :: rest)).1 =
        (rewireInst s (visibleVals argTys ctx) victim.id victim.resultTy I).1 ::
          (rewireList argTys
            (ctx ++ [(rewireInst s (visibleVals argTys ctx) victim.id
              victim.resultTy I).1])
            victim
            (rewireInst s (visibleVals argTys ctx) victim.id
              victim.resultTy I).2 rest).1 := rfl
    rw [he, instsWF_cons, Bool.and_eq_true]
    have hvis : ∀ p, p ∈ visibleVals argTys ctx →
        Operand.visibleIn argTys.length (ctx.map (fun J => J.id)) p.1 = true := by
      intro p hp
      exact visibleVals_visible (by rw [Prod.mk.eta]; exact hp)
        (fun J hJ => List.mem_map.mpr ⟨J, hJ, rfl⟩)
    constructor
    · have hops : (rewireInst s (visibleVals argTys ctx) victim.id
          victim.resultTy I).1.operands =
            (rewireOps s (visibleVals argTys ctx) victim.id victim.resultTy
              I.operands).1 := rfl
      rw [hops]
      exact rewireOps_visible hvis hD I.operands s hwf.1
    · have hmap : ctx.map (fun J => J.id) ++
          [(rewireInst s (visibleVals argTys ctx) victim.id
            victim.resultTy I).1.id] =
          (ctx ++ [(rewireInst s (visibleVals argTys ctx) victim.id
            victim.resultTy I).1]).map (fun J => J.id) := by
        rw [List.map_append, List.map_cons, List.map_nil]
      rw [hmap]
      apply ih _ (D ++ [I.id]) _ ?_ hwf.2
      intro a ha
      rcases List.mem_append.mp ha with ha | ha
      · rcases hD a ha with hc | hc
        · exact Or.inl hc
        · refine Or.inr ?_
          rw [List.map_append]
          exact List.mem_append.mpr (Or.inl hc)
      · have haI : a = I.id := by simpa using ha
        refine Or.inr ?_
        rw [List.map_append]
        refine List.mem_append.mpr (Or.inr ?_)
        have hidI : (rewireInst s (visibleVals argTys ctx) victim.id
            victim.resultTy I).1.id = I.id := rfl
        simp [haI, hidI]

theorem rewireList_termMap (argTys : List Ty) (victim : Instruction) :
    ∀ (post ctx : List Instruction) (s : RandState),
      ((rewireList argTys ctx victim s post).1).map (fun I => I.isTerminator) =
        post.map (fun I => I.isTerminator) := by
  intro post
  induction post with
  | nil => intro ctx s; rfl
  | cons I rest ih =>
    intro ctx s
    have he : (rewireList argTys ctx victim s (I :: rest)).1 =
        (rewireInst s (visibleVals argTys ctx) victim.id victim.resultTy I).1 ::
          (rewireList argTys
            (ctx ++ [(rewireInst s (visibleVals argTys ctx) victim.id
              victim.resultTy I).1])
            victim
            (rewireInst s (visibleVals argTys ctx) victim.id
              victim.resultTy I).2 rest).1 := rfl
    rw [he, List.map_cons, List.map_cons, ih]
    rfl

theorem deleteAt_wf (argTys : List Ty) (b : BasicBlock) (k : Nat) (s : RandState)
    (h : BasicBlock.wf argTys.length b = true) :
    BasicBlock.wf argTys.length (deleteAt argTys b k s).1 = true := by
  simp only [deleteAt]
  split
  · exact h
  next victim hk =>
    split
    · exact h
    next hterm =>
      unfold BasicBlock.wf at h ⊢
      rw [Bool.and_eq_true] at h ⊢
      obtain ⟨ht0, hw0⟩ := h
      rw [Bool.not_eq_true] at hterm
      constructor
      · unfold termWF at ht0 ⊢
        show termBools ((b.insts.take k ++
          (rewireList argTys (b.insts.take k) victim s
            (b.insts.drop (k + 1))).1).map (fun I => I.isTerminator)) = true
        rw [List.map_append, rewireList_termMap, List.map_take, List.map_drop]
        apply termBools_delete _ k ht0
        rw [List.getElem?_map, hk]
        simp [hterm]
      · show instsWF argTys.length [] (b.insts.take k ++
          (rewireList argTys (b.insts.take k) victim s
            (b.insts.drop (k + 1))).1) = true
        rw [instsWF_append, List.nil_append, Bool.and_eq_true]
        have hsplit : b.insts = b.insts.take k ++ victim :: b.insts.drop (k + 1) := by
          conv_lhs => rw [← List.take_append_drop k b.insts]
          rw [drop_cons_of_get b.insts k victim hk]
        rw [hsplit, instsWF_append, List.nil_append, Bool.and_eq_true] at hw0
        obtain ⟨h1, h2⟩ := hw0
        rw [instsWF_cons, Bool.and_eq_true] at h2
        refine ⟨h1, ?_⟩
        apply rewireList_wf argTys victim (b.insts.drop (k + 1)) (b.insts.take k)
          ((b.insts.take k).map (fun J => J.id) ++ [victim.id]) s ?_ h2.2
        intro a ha
        rcases List.mem_append.mp ha with ha | ha
        · exact Or.inr ha
        · exact Or.inl (by simpa using ha)

theorem instsWF_at {n : Nat} {l : List Instruction} {k : Nat} {I : Instruction}
    (h : instsWF n [] l = true) (hk : l[k]? = some I) :
    I.operands.all (Operand.visibleIn n ((l.take k).map (fun J => J.id))) = true := by
  have hsplit : l = l.take k ++ I :: l.drop (k + 1) := by
    conv_lhs => rw [← List.take_append_drop k l]
    rw [drop_cons_of_get l k I hk]
  rw [hsplit, instsWF_append, List.nil_append, Bool.and_eq_true] at h
  obtain ⟨h1, h2⟩ := h
  rw [instsWF_cons, Bool.and_eq_true] at h2
  exact h2.1

theorem instsWF_set {n : Nat} :
    ∀ (l : List Instruction) (k : Nat) (D : List Nat) (I I' : Instruction),
      instsWF n D l = true → l[k]? = some I → I'.id = I.id →
      I'.operands.all
        (Operand.visibleIn n (D ++ (l.take k).map (fun J => J.id))) = true →
      instsWF n D (l.set k I') = true := by
  intro l
  induction l with
  | nil => intro k D I I' h hk _ _; simp at hk
  | cons J rest ih =>
    intro k D I I' h hk hid hops
    rw [instsWF_cons, Bool.and_eq_true] at h
    cases k with
    | zero =>
      simp at hk
      rw [List.set_cons_zero, instsWF_cons, Bool.and_eq_true]
      constructor
      · rw [List.take_zero, List.map_nil, List.append_nil] at hops
        exact hops
      · rw [hid, ← hk]
        exact h.2
    | succ p =>
      rw [List.getElem?_cons_succ] at hk
      rw [List.set_cons_succ, instsWF_cons, Bool.and_eq_true]
      refine ⟨h.1, ?_⟩
      apply ih p (D ++ [J.id]) I I' h.2 hk hid
      rw [show D ++ [J.id] ++ (rest.take p).map (fun J => J.id) =
        D ++ ((J :: rest).take (p + 1)).map (fun J => J.id) by
          rw [List.take_succ_cons, List.map_cons, List.append_assoc,
            List.singleton_append]]
      exact hops

theorem termWF_set {l : List Instruction} {k : Nat} {I I' : Instruction}
    (hk : l[k]? = some I) (hterm : I'.isTerminator = I.isTerminator)
    (h : termWF l = true) : termWF (l.set k I') = true := by
  unfold termWF at h ⊢
  rw [List.map_set, hterm,
    list_set_self _ k _ (by rw [List.getElem?_map, hk]; rfl)]
  exact h

theorem modifyInst_id (argTys : List Ty) (ctx : List Instruction)
    (I : Instruction) (s : RandState) :
    (modifyInst argTys ctx I s).1.id = I.id := by
  simp only [modifyInst]
  repeat' split
  all_goals rfl

theorem modifyInst_isTerminator (argTys : List Ty) (ctx : List Instruction)
    (I : Instruction) (s : RandState) :
    (modifyInst argTys ctx I s).1.isTerminator = I.isTerminator := by
  simp only [modifyInst]
  repeat' split
  all_goals rfl

theorem modifyInst_operands_visible (argTys : List Ty) (ctx : List Instruction)
    (I : Instruction) (s : RandState) {D : List Nat}
    (hctx : ∀ J, J ∈ ctx → J.id ∈ D)
    (hall : I.operands.all (Operand.visibleIn argTys.length D) = true) :
    (modifyInst argTys ctx I s).1.operands.all
      (Operand.visibleIn argTys.length D) = true := by
  simp only [modifyInst]
  split
  · exact hall
  · split
    · split
      · exact hall
      next o hj =>
        split
        · exact hall
        next t hty =>
          split
          · exact hall
          next o' hp =>
            apply list_all_set _ I.operands _ o' hall
            rcases List.mem_map.mp (pick_mem hp) with ⟨p, hpmem, rfl⟩
            exact visibleVals_visible
              (by rw [Prod.mk.eta]; exact List.mem_of_mem_filter hpmem) hctx
    · exact hall

theorem wf_of_getElem {α : Type} (p : α → Bool) {l : List α} {i : Nat} {a : α}
    (h : l.all p = true) (hk : l[i]? = some a) : p a = true := by
  rw [List.all_eq_true] at h
  exact h a (List.getElem?_mem hk)

theorem modifierMutateBlock_wf (argTys : List Ty) (b : BasicBlock)
    (s : RandState) (h : BasicBlock.wf argTys.length b = true) :
    BasicBlock.wf argTys.length (modifierMutateBlock argTys b s).1 = true := by
  simp only [modifierMutateBlock]
  split
  · exact h
  next I hk =>
    unfold BasicBlock.wf at h ⊢
    rw [Bool.and_eq_true] at h ⊢
    obtain ⟨ht0, hw0⟩ := h
    constructor
    · exact termWF_set hk (modifyInst_isTerminator argTys _ I _) ht0
    · apply instsWF_set b.insts _ [] I _ hw0 hk (modifyInst_id argTys _ I _)
      rw [List.nil_append]
      exact modifyInst_operands_visible argTys _ I _
        (fun J hJ => List.mem_map.mpr ⟨J, hJ, rfl⟩) (instsWF_at hw0 hk)

theorem funcWF_setBlock {f : Function} {bi : Nat} {b' : BasicBlock}
    (hf : Function.wf f = true) (hb : BasicBlock.wf f.argTys.length b' = true) :
    Function.wf (f.setBlock bi b') = true := by
  unfold Function.wf at hf ⊢
  exact list_all_set _ f.blocks bi b' hf hb

theorem moduleWF_setFunc {M : Module} {fi : Nat} {f' : Function}
    (hM : Module.wf M = true) (hf : Function.wf f' = true) :
    Module.wf (M.setFunc fi f') = true := by
  unfold Module.wf at hM ⊢
  exact list_all_set _ M.funcs fi f' hM hf

theorem injectorMutateFunction_wf (ops : List OpDescriptor) (f : Function)
    (s : RandState) (h : Function.wf f = true) :
    Function.wf (injectorMutateFunction ops f s).1 = true := by
  simp only [injectorMutateFunction]
  split
  · exact h
  next b hb =>
    exact funcWF_setBlock h
      (injectorMutateBlock_wf ops f.argTys b _ (wf_of_getElem _ h hb))

theorem deleterMutateFunction_wf (f : Function) (s : RandState)
    (h : Function.wf f = true) :
    Function.wf (deleterMutateFunction f s).1 = true := by
  simp only [deleterMutateFunction]
  split
  · exact h
  next c hc =>
    split
    · exact h
    next b hb =>
      exact funcWF_setBlock h
        (deleteAt_wf f.argTys b c.2 _ (wf_of_getElem _ h hb))

theorem modifierMutateFunction_wf (f : Function) (s : RandState)
    (h : Function.wf f = true) :
    Function.wf (modifierMutateFunction f s).1 = true := by
  simp only [modifierMutateFunction]
  split
  · exact h
  next b hb =>
    exact funcWF_setBlock h
      (modifierMutateBlock_wf f.argTys b _ (wf_of_getElem _ h hb))

theorem mutateFunctionInModule_wf (M : Module) (s : RandState)
    (g : Function → RandState → Function × RandState)
    (hg : ∀ f s', Function.wf f = true → Function.wf (g f s').1 = true)
    (h : Module.wf M = true) :
    Module.wf (mutateFunctionInModule M s g).1 = true := by
  simp only [mutateFunctionInModule]
  split
  · exact h
  next f hf => exact moduleWF_setFunc h (hg f _ (wf_of_getElem _ h hf))

theorem strategy_mutate_wf (st : Strategy) (M : Module) (s : RandState)
    (h : Module.wf M = true) : Module.wf (st.mutate M s).1 = true := by
  cases st with
  | injector ops =>
    exact mutateFunctionInModule_wf M s _
      (fun f s' hf => injectorMutateFunction_wf ops f s' hf) h
  | deleter =>
    exact mutateFunctionInModule_wf M s _
      (fun f s' hf => deleterMutateFunction_wf f s' hf) h
  | modifier =>
    exact mutateFunctionInModule_wf M s _
      (fun f s' hf => modifierMutateFunction_wf f s' hf) h

theorem injectorMutateBlock_noop (ops : List OpDescriptor) (argTys : List Ty)
    (b : BasicBlock) (s : RandState)
    (hrej : ∀ d, d ∈ ops → d.sourcePred
      (pickSource argTys b (pickInsertPos b s).1 (pickInsertPos b s).2).1.2 =
        false) :
    (injectorMutateBlock ops argTys b s).1 = b := by
  simp only [injectorMutateBlock]
  split
  · rfl
  · split
    · rfl
    next d heq =>
      exfalso
      unfold chooseOperation at heq
      rw [show ops.filter (fun d => d.sourcePred
          (pickSource argTys b (pickInsertPos b s).1 (pickInsertPos b s).2).1.2) =
            [] by
          rw [List.filter_eq_nil_iff]
          intro d hd
          simp [hrej d hd]] at heq
      simp [pick] at heq

theorem injector_noop_module (ops : List OpDescriptor)
    (hrej : ∀ d, d ∈ ops → ∀ t, d.sourcePred t = false)
    (M : Module) (s : RandState) :
    (injectorMutateModule ops M s).1 = M := by
  simp only [injectorMutateModule, mutateFunctionInModule]
  split
  · rfl
  next f hf =>
    have hfun : ∀ s', (injectorMutateFunction ops f s').1 = f := by
      intro s'
      simp only [injectorMutateFunction]
      split
      · rfl
      next b hb =>
        show f.setBlock _ (injectorMutateBlock ops f.argTys b _).1 = f
        rw [injectorMutateBlock_noop ops f.argTys b _ (fun d hd => hrej d hd _)]
        unfold Function.setBlock
        rw [list_set_self f.blocks _ b hb]
    show M.setFunc _ (injectorMutateFunction ops f _).1 = M
    rw [hfun]
    unfold Module.setFunc
    rw [list_set_self M.funcs _ f hf]

theorem mutateModule_injector_noop (ops : List OpDescriptor)
    (hrej : ∀ d, d ∈ ops → ∀ t, d.sourcePred t = false)
    (M : Module) (Seed : Int) (CurSize MaxSize : Nat) :
    mutateModule [Strategy.injector ops] M Seed CurSize MaxSize = M := by
  simp only [mutateModule]
  split
  · rfl
  next p hp =>
    simp only [selectStrategy] at hp
    split at hp
    · have hps : (0, Strategy.injector ops) = p := Option.some.inj hp
      rw [← hps]
      exact injector_noop_module ops hrej M _
    · simp [selectStrategy] at hp

theorem selectStrategy_skips_zero :
    ∀ (pre post : List Strategy) (cur maxS x acc : Nat), acc ≤ x →
      ∀ r, selectStrategy cur maxS x (pre ++ Strategy.injector [] :: post) acc =
        some r → r.1 ≠ pre.length := by
  intro pre
  induction pre with
  | nil =>
    intro post cur maxS x acc hacc r hr
    simp only [List.nil_append, selectStrategy] at hr
    rw [if_neg (by
      simp only [Strategy.getWeight, InjectorIRStrategy.getWeight,
        List.length_nil, Nat.add_zero]
      omega)] at hr
    rcases Option.map_eq_some'.mp hr with ⟨q, hq, hqe⟩
    rw [← hqe]
    simp

  | cons st pre' ih =>
    intro post cur maxS x acc hacc r hr
    simp only [List.cons_append, selectStrategy] at hr
    split at hr
    · have := Option.some.inj hr
      rw [← this]
      simp
    · next hge =>
      rcases Option.map_eq_some'.mp hr with ⟨q, hq, hqe⟩
      have hq1 := ih post cur maxS x (acc + st.getWeight cur maxS acc)
        (by omega) q hq
      rw [← hqe]
      simp only [List.length_cons, ne_eq]
      intro hcon
      exact hq1 (by omega)

/-- C1: for every list of registered strategies and every well-formed input
module, after a call to mutateModule the module is still well-formed: every
operand of every Instruction names a Value visible at its point of use, and
every BasicBlock still ends with exactly one terminator Instruction. -/
theorem mutateModule_preserves_wf (Strategies : List Strategy) (M : Module)
    (Seed : Int) (CurSize MaxSize : Nat) (h : Module.wf M = true) :
    Module.wf (mutateModule Strategies M Seed CurSize MaxSize) = true := by
  simp only [mutateModule]
  split
  · exact h
  next p hp => exact strategy_mutate_wf p.2 M _ h

theorem mutateModule_preserves_wf_witness :
    Module.wf M0 = true ∧
    Module.wf (mutateModule [Strategy.injector [acceptAllOp], Strategy.deleter,
      Strategy.modifier] M0 42 10 100) = true :=
  ⟨by decide,
   mutateModule_preserves_wf [Strategy.injector [acceptAllOp], Strategy.deleter,
     Strategy.modifier] M0 42 10 100 (by decide)⟩

/-- C2: mutateModule is deterministic: two calls with identical module, seed,
currentSize and maxSize produce identical output modules; in this model all
randomness is threaded from the explicit RandState seeded from Seed, so the
result is a pure function of the four arguments and the strategy list. -/
theorem mutateModule_deterministic (Strategies : List Strategy)
    (M M' : Module) (Seed Seed' : Int) (c c' m m' : Nat)
    (hM : M = M') (hS : Seed = Seed') (hc : c = c') (hm : m = m') :
    mutateModule Strategies M Seed c m =
      mutateModule Strategies M' Seed' c' m' := by
  rw [hM, hS, hc, hm]

theorem mutateModule_deterministic_witness :
    mutateModule [Strategy.deleter, Strategy.modifier] M0 7 5 50 =
      mutateModule [Strategy.deleter, Strategy.modifier] M0 7 5 50 :=
  mutateModule_deterministic [Strategy.deleter, Strategy.modifier]
    M0 M0 7 7 5 5 50 50 rfl rfl rfl rfl

/-- C3: an empty random candidate set inside the injector strategy degrades
to a no-op edit rather than an error: when no operation template accepts the
chosen source Value's type the block is left structurally unchanged, and a
mutateModule call whose injector catalog rejects every type returns the
module unchanged (mutateModule is total and returns no success/failure
indication). -/
theorem injector_empty_candidates_noop :
    (∀ (ops : List OpDescriptor) (argTys : List Ty) (b : BasicBlock)
      (s : RandState),
      (∀ d, d ∈ ops → d.sourcePred
        (pickSource argTys b (pickInsertPos b s).1 (pickInsertPos b s).2).1.2 =
          false) →
      (injectorMutateBlock ops argTys b s).1 = b) ∧
    (∀ (ops : List OpDescriptor),
      (∀ d, d ∈ ops → ∀ t, d.sourcePred t = false) →
      ∀ (M : Module) (Seed : Int) (CurSize MaxSize : Nat),
        mutateModule [Strategy.injector ops] M Seed CurSize MaxSize = M) :=
  ⟨fun ops argTys b s h => injectorMutateBlock_noop ops argTys b s h,
   fun ops h M Seed c m => mutateModule_injector_noop ops h M Seed c m⟩

theorem injector_empty_candidates_noop_witness :
    (injectorMutateBlock [rejectAllOp] [] blk0 (RandState.ofSeed 5)).1 = blk0 ∧
    mutateModule [Strategy.injector [rejectAllOp]] M0 3 10 100 = M0 :=
  ⟨injector_empty_candidates_noop.1 [rejectAllOp] [] blk0 (RandState.ofSeed 5)
      (by
        intro d hd
        rw [List.mem_singleton] at hd
        subst hd
        rfl),
   injector_empty_candidates_noop.2 [rejectAllOp]
      (by
        intro d hd t
        rw [List.mem_singleton] at hd
        subst hd
        rfl) M0 3 10 100⟩

/-- C4 counterexample: the IRMutator constructor accepts and registers a
strategy overriding no granularity without signalling any violation (the
constructor merely stores the strategy list), while the fatal
llvm_unreachable contract violation fires only once a mutation call reaches
Instruction granularity — so the violation is not detected at
construction/registration time as the claim states. -/
theorem strategy_without_override_registers :
    (IRMutator.mk [Ty.i32] [noOverrideStrategy]).Strategies =
      [noOverrideStrategy] ∧
    noOverrideStrategy.mutateInstruction termInst (RandState.ofSeed 0) =
      MutateOutcome.fatal "Strategy does not implement any mutators" :=
  ⟨rfl, rfl⟩

/-- C4 (amended): a strategy whose mutation call reaches Instruction
granularity without overriding the Instruction-level mutate signals a fatal,
non-recoverable contract violation at that moment of the mutation call
(llvm_unreachable), not at construction/registration time; every registered
strategy must therefore override at least the granularity at which its
forwarding path terminates. -/
theorem mutateInstruction_default_fatal (st : IRMutationStrategy)
    (h : st.mutateInstructionOverride = none) (I : Instruction)
    (s : RandState) :
    st.mutateInstruction I s =
      MutateOutcome.fatal "Strategy does not implement any mutators" := by
  unfold IRMutationStrategy.mutateInstruction
  rw [h]

theorem mutateInstruction_default_fatal_witness :
    noOverrideStrategy.mutateInstruction termInst (RandState.ofSeed 1) =
      MutateOutcome.fatal "Strategy does not implement any mutators" :=
  mutateInstruction_default_fatal noOverrideStrategy rfl termInst
    (RandState.ofSeed 1)

/-- C5: InstDeleterIRStrategy's getWeight is monotonically non-decreasing in
CurrentSize for fixed MaxSize and CurrentWeight: for sizes s1 ≤ s2 the
weight at s1 is at most the weight at s2. -/
theorem instDeleter_getWeight_monotone (MaxSize CurrentWeight s1 s2 : Nat)
    (h : s1 ≤ s2) :
    InstDeleterIRStrategy.getWeight s1 MaxSize CurrentWeight ≤
      InstDeleterIRStrategy.getWeight s2 MaxSize CurrentWeight := by
  unfold InstDeleterIRStrategy.getWeight
  split
  · split
    · exact Nat.le_refl _
    · omega
  · split
    next h1 h2 =>
      have hms : 0 < MaxSize := by omega
      calc CurrentWeight * s1 / MaxSize
          ≤ CurrentWeight * MaxSize / MaxSize :=
            Nat.div_le_div_right (Nat.mul_le_mul_left _ (by omega))
        _ = CurrentWeight := Nat.mul_div_cancel CurrentWeight hms
        _ = CurrentWeight * 1 := (Nat.mul_one _).symm
        _ ≤ CurrentWeight * 100 := Nat.mul_le_mul_left _ (by omega)
    · exact Nat.div_le_div_right (Nat.mul_le_mul_left _ h)

theorem instDeleter_getWeight_monotone_witness :
    InstDeleterIRStrategy.getWeight 20 100 10 ≤
      InstDeleterIRStrategy.getWeight 50 100 10 :=
  instDeleter_getWeight_monotone 100 10 20 50 (by decide)

theorem encodeModule_length (M : Module) : 4 ≤ (encodeModule M).length := by
  unfold encodeModule magicBytes
  simp [List.length_append]

/-- C6: writeModule never writes beyond MaxSize bytes of the destination
(every byte at an index at or above MaxSize is unchanged), and it returns 0
with the destination left unmodified exactly when the module's encoded size
exceeds MaxSize. -/
theorem writeModule_bounds (M : Module) (Dest : List Nat) (MaxSize : Nat) :
    (∀ i, MaxSize ≤ i → (writeModule M Dest MaxSize).2[i]? = Dest[i]?) ∧
    (((writeModule M Dest MaxSize).1 = 0 ∧
        (writeModule M Dest MaxSize).2 = Dest) ↔
      MaxSize < (encodeModule M).length) := by
  simp only [writeModule]
  split
  next hover => simp [hover]
  next hfit =>
    constructor
    · intro i hi
      have hlen : (encodeModule M).length ≤ i := by omega
      rw [List.getElem?_append_right hlen, List.getElem?_drop]
      rw [show (encodeModule M).length + (i - (encodeModule M).length) = i by
        omega]
    · constructor
      · intro hc
        exact absurd hc.1 (by have := encodeModule_length M; omega)
      · intro hlt
        exact absurd hlt hfit

theorem writeModule_bounds_witness :
    (writeModule ⟨[]⟩ [9, 9, 9] 2).2[4]? = ([9, 9, 9] : List Nat)[4]? ∧
    ((writeModule ⟨[]⟩ [9, 9, 9] 2).1 = 0 ∧
      (writeModule ⟨[]⟩ [9, 9, 9] 2).2 = [9, 9, 9]) :=
  ⟨(writeModule_bounds ⟨[]⟩ [9, 9, 9] 2).1 4 (by decide),
   (writeModule_bounds ⟨[]⟩ [9, 9, 9] 2).2.mpr (by decide)⟩

/-- C7: parseModule never raises: it is a total function returning either a
Module or the failure indicator none on every input byte buffer, including
malformed or truncated encodings, and on failure the supplied Context is
returned unchanged, still valid and reusable. -/
theorem parseModule_total_and_context_reusable (Data : List Nat)
    (Context : LLVMContext) :
    ((parseModule Data Context).1 = none ∨
      ∃ m, (parseModule Data Context).1 = some m) ∧
    ((parseModule Data Context).1 = none →
      (parseModule Data Context).2 = Context) := by
  constructor
  · cases hp : (parseModule Data Context).1 with
    | none => exact Or.inl rfl
    | some m => exact Or.inr ⟨m, rfl⟩
  · intro hnone
    by_cases hmagic : Data.take 4 = magicBytes
    · cases hdrop : Data.drop 4 with
      | nil => simp [parseModule, hmagic, hdrop]
      | cons cnt rest =>
        cases hdec : decodeFunctions cnt rest with
        | none => simp [parseModule, hmagic, hdrop, hdec]
        | some p =>
          exfalso
          simp [parseModule, hmagic, hdrop, hdec] at hnone
    · simp [parseModule, hmagic]

theorem parseModule_total_and_context_reusable_witness :
    ((parseModule [0] ⟨[]⟩).1 = none ∨
      ∃ m, (parseModule [0] ⟨[]⟩).1 = some m) ∧
    (parseModule [0] ⟨[]⟩).2 = ⟨[]⟩ :=
  ⟨(parseModule_total_and_context_reusable [0] ⟨[]⟩).1,
   (parseModule_total_and_context_reusable [0] ⟨[]⟩).2 (by decide)⟩

/-- C8: InjectorIRStrategy's getWeight equals the number of operation
templates in its catalog and depends on none of its three size/weight
arguments. -/
theorem injector_getWeight_spec (Operations : List OpDescriptor)
    (c1 m1 w1 c2 m2 w2 : Nat) :
    InjectorIRStrategy.getWeight Operations c1 m1 w1 = Operations.length ∧
    InjectorIRStrategy.getWeight Operations c1 m1 w1 =
      InjectorIRStrategy.getWeight Operations c2 m2 w2 :=
  ⟨rfl, rfl⟩

/-- C9: InstModificationIRStrategy's getWeight is the constant 4, for every
CurrentSize, MaxSize and CurrentWeight, including CurrentSize greater than
MaxSize. -/
theorem instModification_getWeight_spec (c1 m1 w1 c2 m2 w2 : Nat) :
    InstModificationIRStrategy.getWeight c1 m1 w1 = 4 ∧
    InstModificationIRStrategy.getWeight c1 m1 w1 =
      InstModificationIRStrategy.getWeight c2 m2 w2 :=
  ⟨rfl, rfl⟩

/-- C10: an InjectorIRStrategy with an empty operation catalog has weight 0
for every argument triple, and consequently the weighted selection never
selects it: wherever it sits in the registration order, the selected index
is never its index. -/
theorem injector_empty_catalog_never_selected :
    (∀ (CurrentSize MaxSize CurrentWeight : Nat),
      InjectorIRStrategy.getWeight [] CurrentSize MaxSize CurrentWeight = 0) ∧
    (∀ (pre post : List Strategy) (cur maxS x acc : Nat), acc ≤ x →
      ∀ r, selectStrategy cur maxS x (pre ++ Strategy.injector [] :: post) acc =
        some r → r.1 ≠ pre.length) :=
  ⟨fun _ _ _ => rfl, selectStrategy_skips_zero⟩

theorem injector_empty_catalog_never_selected_witness :
    InjectorIRStrategy.getWeight [] 1 2 3 = 0 ∧
    ((1, Strategy.modifier) : Nat × Strategy).1 ≠ 0 :=
  ⟨injector_empty_catalog_never_selected.1 1 2 3,
   injector_empty_catalog_never_selected.2 [] [Strategy.modifier] 5 10 0 0
     (by decide) (1, Strategy.modifier) (by rfl)⟩

end IRFuzz
